import Mathlib

/-!
Verification development for the `synapses` SET layer
(`src/synapses/SET_layer.py`, class `SETLayer`).

Shallow embedding conventions:
* Machine floats are idealised as exact rationals (`ℚ`).
* The global torch RNG is modelled by two explicit oracle streams:
  `tape : ℕ → ℕ` supplying the uniform integer draws consumed by
  `torch.randint` (a draw for range `m` is read as `tape pos % m`), and
  `gauss : ℕ → ℚ` supplying the values of the standard-normal draws
  consumed by `torch.randn`.  Each call reads consecutive positions.
* `torch.randn(k) * stdv` is modelled as `stdv * gauss pos`; `stdv` stands
  for the float `math.sqrt(2 / indim)`, which has no exact rational value,
  so it is carried as an explicit parameter (theorems tie it to the source
  expression through the hypothesis `stdv * stdv * indim = 2`).
* The unbounded recursion of `generate_connections` is modelled with an
  explicit fuel argument; `GenOutcome.diverge` marks that no amount of
  fuel in the model made the recursion return, i.e. the Python call does
  not terminate on that random stream.
* `torch.cat` applied to an empty list of tensors raises a `RuntimeError`;
  this concrete failure is modelled by `GenOutcome.emptyCat`.
* Tensor reads are modelled with `List.getD`; every use below is guarded
  by the bounds that hold at the corresponding source line.
-/

set_option maxRecDepth 100000

namespace Synapses

/-- Outcome of a computation that runs the connection sampler
(`SETLayer.generate_connections`): a value, the `torch.cat([])`
`RuntimeError` raised at line 133 when no fresh pair was sampled, or
non-termination of the unbounded retry recursion (lines 136-137). -/
inductive GenOutcome (α : Type) where
  | ok (a : α)
  | emptyCat
  | diverge
deriving DecidableEq

/-- State of a `SETLayer` instance: the fields set by `__init__` and
mutated by the evolution methods.  `weight` is the flat parameter vector
(shape `(n_params,)`), `connections` the `(n_params, 2)` tensor as a list
of (input index, output index) pairs, `zmap` the fan-in gather table and
`markedIndices` the `marked_indices` attribute (`None` or a list of weight
slots). -/
structure SETLayer where
  indim : ℕ
  outdim : ℕ
  epsilon : ℚ
  zeta : ℚ
  sparsity : ℚ
  nParams : ℕ
  markedIndices : Option (List ℕ)
  connections : List (ℕ × ℕ)
  zmap : List (List ℕ)
  weight : List ℚ
  bias : Option (List ℚ)
deriving DecidableEq

/-- `int(n * 1.5)` from line 128/129: for the integer sizes in play the
float product is exact, so this is `⌊3n/2⌋`. -/
def pyInt15 (n : ℕ) : ℕ := 3 * n / 2

/-- The candidate pairs of one sampling round (lines 128-130):
`iidx = torch.randint(indim, (cnt,))` reads tape positions
`base .. base+cnt-1`, `oidx = torch.randint(outdim, (cnt,))` reads the
next `cnt` positions, and the two columns are zipped into pairs. -/
def candPairs (indim outdim : ℕ) (tape : ℕ → ℕ) (base cnt : ℕ) : List (ℕ × ℕ) :=
  (List.range cnt).map fun j => (tape (base + j) % indim, tape (base + cnt + j) % outdim)

/-- `SETLayer.generate_connections(n)` (lines 114-139) against the current
connection set `existing` (`t` in the source; empty when
`self.connections is None`).  One round oversamples `pyInt15 n`
candidates, deduplicates them (the Python `set`; the iteration order of
the set is implementation defined, modelled here by `List.dedup`) and
drops the pairs already in `existing`.  An empty remainder crashes
`torch.cat` (`emptyCat`); fewer than `n` fresh pairs retries on the next
tape segment — unboundedly in the source, metered by `fuel` here; enough
pairs returns the first `n` and the next unread tape position.
`genFresh` is the `new_locs` value of one round (lines 131-133). -/
def genFresh (indim outdim : ℕ) (existing : List (ℕ × ℕ)) (tape : ℕ → ℕ)
    (base n : ℕ) : List (ℕ × ℕ) :=
  ((candPairs indim outdim tape base (pyInt15 n)).dedup).filter
    fun p => decide (p ∉ existing)

def generateConnections (indim outdim : ℕ) (existing : List (ℕ × ℕ)) (tape : ℕ → ℕ)
    (n : ℕ) : ℕ → ℕ → GenOutcome (List (ℕ × ℕ) × ℕ)
  | 0, _ => .diverge
  | fuel + 1, base =>
    if (genFresh indim outdim existing tape base n).length = 0 then .emptyCat
    else if (genFresh indim outdim existing tape base n).length < n then
      generateConnections indim outdim existing tape n fuel (base + 2 * pyInt15 n)
    else .ok ((genFresh indim outdim existing tape base n).take n, base + 2 * pyInt15 n)

/-- Fancy-indexed assignment `l[indices] = values` (used for
`self.connections[indices] = connections` at line 112 and
`self.weight.data[indices] = new_values` at line 202): positionally sets
`l[indices[j]] := values[j]`, later writes winning. -/
def setEach {α : Type} (l : List α) : List ℕ → List α → List α
  | [], _ => l
  | _ :: _, [] => l
  | i :: is, v :: vs => setEach (l.set i v) is vs

/-- Row `o` of the pre-padding fan-in map (lines 210-214):
`torch.nonzero(self.connections[:, 1] == o)`, i.e. the weight slots whose
connection targets output `o`, in ascending slot order. -/
def zmapRows (conns : List (ℕ × ℕ)) (outdim : ℕ) : List (List ℕ) :=
  (List.range outdim).map fun o =>
    (List.range conns.length).filter fun s => decide ((conns.getD s (0, 0)).2 = o)

/-- Number of connections targeting output `o` (the length of row `o`
before padding). -/
def fanIn (conns : List (ℕ × ℕ)) (o : ℕ) : ℕ :=
  ((List.range conns.length).filter fun s => decide ((conns.getD s (0, 0)).2 = o)).length

/-- The running maximum `longest` of lines 209-213. -/
def zmapWidth (conns : List (ℕ × ℕ)) (outdim : ℕ) : ℕ :=
  (zmapRows conns outdim).foldl (fun m r => max m r.length) 0

/-- `SETLayer.generate_zmap` (lines 206-220): each row is padded on the
right with the sentinel slot index `n_params`
(`torch.ones((outdim, longest)) * n_params` overwritten on the left by
the true indices). -/
def generateZmap (conns : List (ℕ × ℕ)) (outdim nParams : ℕ) : List (List ℕ) :=
  (zmapRows conns outdim).map fun r =>
    r ++ List.replicate (zmapWidth conns outdim - r.length) nParams

/-- Sorting key of `torch.topk(tens, k, largest=True)` at line 161:
slot `i` ranks before slot `j` when its weight is larger; equal weights
are tie-broken by slot index (torch leaves the tie order unspecified;
the model fixes ascending index, which no theorem below depends on). -/
def descOrder (w : List ℚ) (i j : ℕ) : Prop :=
  w.getD j 0 < w.getD i 0 ∨ (w.getD i 0 = w.getD j 0 ∧ i ≤ j)

/-- Sorting key of `torch.topk(tens, k, largest=False)` at line 166. -/
def ascOrder (w : List ℚ) (i j : ℕ) : Prop :=
  w.getD i 0 < w.getD j 0 ∨ (w.getD i 0 = w.getD j 0 ∧ i ≤ j)

instance descOrderDecidable (w : List ℚ) : DecidableRel (descOrder w) := fun i j =>
  inferInstanceAs (Decidable (_ ∨ _))

instance ascOrderDecidable (w : List ℚ) : DecidableRel (ascOrder w) := fun i j =>
  inferInstanceAs (Decidable (_ ∨ _))

/-- The index set returned by `torch.topk(tens, k, largest)` (lines 161,
166), as a list: the slot indices sorted by the requested order, first
`k` taken. -/
def topkIdx (w : List ℚ) (k : ℕ) (largest : Bool) : List ℕ :=
  if largest then (List.insertionSort (descOrder w) (List.range w.length)).take k
  else (List.insertionSort (ascOrder w) (List.range w.length)).take k

/-- `SETLayer.mark_connections` (lines 141-172).  `numpos`/`numneg` count
the strictly positive / strictly negative weights; `int(count * zeta)` is
`(⌊count·ζ⌋).toNat` (for the `ζ ≥ 0` regime in which `torch.topk` does
not raise); the kill masks intersect the topk index sets with the sign
masks, and `torch.nonzero` returns the marked slots in ascending order. -/
def markConnections (w : List ℚ) (zeta : ℚ) : List ℕ :=
  let numpos := (w.filter fun v => decide (0 < v)).length
  let numneg := (w.filter fun v => decide (v < 0)).length
  let negK := (⌊(numneg : ℚ) * zeta⌋).toNat + numpos
  let posK := (⌊(numpos : ℚ) * zeta⌋).toNat + numneg
  let killNeg := topkIdx w negK true
  let killPos := topkIdx w posK false
  (List.range w.length).filter fun i =>
    decide ((w.getD i 0 < 0 ∧ i ∈ killNeg) ∨ (0 < w.getD i 0 ∧ i ∈ killPos))

/-- `SETLayer.zero_connections` (lines 180-184): marks, zeroes the marked
weights (`kill_parameters`) and stores the marked set in
`self.marked_indices`. -/
def zeroConnections (L : SETLayer) : SETLayer :=
  let indices := markConnections L.weight L.zeta
  { L with
    weight := setEach L.weight indices (List.replicate indices.length 0)
    markedIndices := some indices }

/-- The `indices` local of `evolve_connections` (lines 193-196): reuse
`self.marked_indices` when present, else mark afresh. -/
def evolveIndices (L : SETLayer) : List ℕ :=
  match L.markedIndices with
  | none => markConnections L.weight L.zeta
  | some l => l

/-- The `new_values` local of `evolve_connections` (lines 197-201):
`torch.randn(len) * sqrt(2/indim)` when `init` (reading `gauss` from
position `gbase`), zeros otherwise. -/
def evolveValues (init : Bool) (stdv : ℚ) (gauss : ℕ → ℚ) (gbase len : ℕ) : List ℚ :=
  if init then (List.range len).map fun j => stdv * gauss (gbase + j)
  else List.replicate len 0

/-- `SETLayer.evolve_connections(init)` (lines 186-204): choose the
marked slots (`evolveIndices`), overwrite their weights
(`evolveValues`), regrow their connections avoiding every currently
active pair, and rebuild the zmap.  `self.marked_indices` is not written
by this method. -/
def evolveConnections (L : SETLayer) (init : Bool) (stdv : ℚ) (gauss : ℕ → ℚ)
    (gbase : ℕ) (tape : ℕ → ℕ) (fuel base : ℕ) : GenOutcome SETLayer :=
  match generateConnections L.indim L.outdim L.connections tape
      (evolveIndices L).length fuel base with
  | .ok (news, _) =>
    .ok { L with
      weight := setEach L.weight (evolveIndices L) (evolveValues init stdv gauss gbase (evolveIndices L).length)
      connections := setEach L.connections (evolveIndices L) news
      zmap := generateZmap (setEach L.connections (evolveIndices L) news) L.outdim L.nParams }
  | .emptyCat => .emptyCat
  | .diverge => .diverge

/-- Sparsity derivation of `__init__` (lines 79-87): an explicit sparsity
is used directly; otherwise the Erdős–Rényi density
`ε(indim+outdim)/(indim·outdim)` gives `sparsity = 1 - density`, clamped
to `0.9` only when it exceeds `1`. -/
def deriveSparsity (indim outdim : ℕ) (epsilon : ℚ) (sparsity : Option ℚ) : ℚ :=
  match sparsity with
  | some s => s
  | none =>
    let density := epsilon * ((indim : ℚ) + outdim) / ((indim : ℚ) * outdim)
    let s := 1 - density
    if 1 < s then (9 : ℚ) / 10 else s

/-- `n_params` derivation of `__init__` (line 88):
`int(indim * outdim * (1 - sparsity))`.  Python `int()` truncates toward
zero; for the nonnegative values reachable here that is the floor, and
`Int.toNat` records that the result is used as a size. -/
def deriveNParams (indim outdim : ℕ) (sparsity : ℚ) : ℕ :=
  (⌊(indim : ℚ) * (outdim : ℚ) * (1 - sparsity)⌋).toNat

/-- `SETLayer.__init__` (lines 66-100): derive sparsity and `n_params`,
generate the initial connections (with no exclusions), build the zmap,
then `reset_parameters` draws `weight = randn(n_params) * sqrt(2/indim)`
(reading `gauss 0 .. gauss (n-1)`) and, when `bias=True`,
`bias = randn(outdim) * sqrt(2/indim)` (the next `outdim` draws).  No
validation of the dimensions or of `n_params` is performed anywhere in
the constructor. -/
def construct (indim outdim : ℕ) (epsilon : ℚ) (sparsity : Option ℚ) (zeta : ℚ)
    (useBias : Bool) (stdv : ℚ) (gauss : ℕ → ℚ) (tape : ℕ → ℕ) (fuel : ℕ) :
    GenOutcome SETLayer :=
  let s := deriveSparsity indim outdim epsilon sparsity
  let n := deriveNParams indim outdim s
  match generateConnections indim outdim [] tape n fuel 0 with
  | .ok (conns, _) =>
    .ok { indim := indim
          outdim := outdim
          epsilon := epsilon
          zeta := zeta
          sparsity := s
          nParams := n
          markedIndices := none
          connections := conns
          zmap := generateZmap conns outdim n
          weight := (List.range n).map fun j => stdv * gauss j
          bias := if useBias then some ((List.range outdim).map fun j => stdv * gauss (n + j))
            else none }
  | .emptyCat => .emptyCat
  | .diverge => .diverge

/-- Result of `SETLayer.forward`: the output tensor, the `IndexError`
raised by `x[:, inds]` when some active input index is out of range for
the input's feature width, or the `TypeError` raised by
`z + self.bias` when `self.bias` is `None`. -/
inductive FwdResult where
  | ok (y : List (List ℚ))
  | indexError
  | biasTypeError
deriving DecidableEq

/-- Per-slot products of one batch row (lines 229-231):
`k[b] = x[b][inds] * weight`. -/
def slotProducts (conns : List (ℕ × ℕ)) (w : List ℚ) (r : List ℚ) : List ℚ :=
  (conns.zip w).map fun cw => r.getD cw.1.1 0 * cw.2

/-- Lines 232-234 for one batch row: append the virtual zero slot, gather
by the zmap rows and sum over the fan-in axis. -/
def forwardRow (conns : List (ℕ × ℕ)) (w : List ℚ) (zmap : List (List ℕ))
    (r : List ℚ) : List ℚ :=
  let kz := slotProducts conns w r ++ [0]
  zmap.map fun zr => (zr.map fun idx => kz.getD idx 0).sum

/-- `SETLayer.forward` (lines 228-235).  The only width-related check the
source performs is the bounds check of the advanced indexing
`x[:, inds]`; no comparison of the feature width with `indim` exists.
Line 235 unconditionally adds `self.bias`, which raises a `TypeError`
when bias was disabled. -/
def forward (L : SETLayer) (x : List (List ℚ)) : FwdResult :=
  if x.all fun r => L.connections.all fun c => decide (c.1 < r.length) then
    match L.bias with
    | none => .biasTypeError
    | some b =>
      .ok (x.map fun r => List.zipWith (· + ·) (forwardRow L.connections L.weight L.zmap r) b)
  else .indexError

/-- The connection-set invariant of the spec: exactly `n_params` entries,
no duplicate pairs, all indices in bounds. -/
def ConnInvariant (L : SETLayer) : Prop :=
  L.connections.length = L.nParams ∧ L.connections.Nodup ∧
    ∀ p ∈ L.connections, p.1 < L.indim ∧ p.2 < L.outdim

/-- One externally triggered mutation of a layer: a `zero_connections`
call or a completed `evolve_connections` call. -/
inductive LayerStep : SETLayer → SETLayer → Prop where
  | zero (L : SETLayer) : LayerStep L (zeroConnections L)
  | evolve (L Lnext : SETLayer) (init : Bool) (stdv : ℚ) (gauss : ℕ → ℚ)
      (gbase : ℕ) (tape : ℕ → ℕ) (fuel base : ℕ) :
      evolveConnections L init stdv gauss gbase tape fuel base = GenOutcome.ok Lnext →
      LayerStep L Lnext

/-- Gaussian oracle used by the concrete runs below: every draw is `1`. -/
def gaussOne : ℕ → ℚ := fun _ => 1

/-- Integer tape used by the concrete evolution runs below: the draws
`0, 1` (then zeros), producing the candidate pair `(0, 1)`. -/
def tape01 : ℕ → ℕ := fun m => [0, 1].getD m 0

/-- Integer tape for a concrete constructor run with `indim = outdim = 2`
and `n_params = 4`: the six `iidx` draws `0,0,1,1,0,0` followed by the six
`oidx` draws `0,1,0,1,0,0`, yielding all four pairs of the 2×2 grid. -/
def tapeC1 : ℕ → ℕ := fun m => [0, 0, 1, 1, 0, 0, 0, 1, 0, 1, 0, 0].getD m 0

/-- The layer produced by
`construct 2 2 11 (some 0) 1 false 1 gaussOne tapeC1 1`, written out. -/
def cLayer : SETLayer :=
  { indim := 2, outdim := 2, epsilon := 11, zeta := 1, sparsity := 0, nParams := 4
    markedIndices := none, connections := [(0, 1), (1, 0), (1, 1), (0, 0)]
    zmap := [[1, 3], [0, 2]], weight := [1, 1, 1, 1], bias := none }

/-- A small concrete layer (2 inputs, 2 outputs, 2 weight slots, bias on)
used to exercise `forward`. -/
def fLayer : SETLayer :=
  { indim := 2, outdim := 2, epsilon := 11, zeta := 1, sparsity := 0, nParams := 2
    markedIndices := none, connections := [(0, 0), (1, 1)]
    zmap := [[0], [1]], weight := [2, 3], bias := some [10, 20] }

/-- `fLayer` with bias disabled. -/
def nbLayer : SETLayer := { fLayer with bias := none }

/-- A concrete layer carrying a stored marked set (`marked_indices = [0]`,
as left behind by a `zero_connections` call), used to exercise
`evolve_connections`. -/
def mLayer : SETLayer :=
  { indim := 2, outdim := 2, epsilon := 11, zeta := 1, sparsity := 0, nParams := 2
    markedIndices := some [0], connections := [(0, 0), (1, 1)]
    zmap := [[0], [1]], weight := [1, 1], bias := some [0, 0] }

/-- The layer produced by
`evolveConnections mLayer true 1 gaussOne 0 tape01 1 0`, written out. -/
def mLayerE : SETLayer :=
  { mLayer with connections := [(0, 1), (1, 1)], zmap := [[2, 2], [0, 1]] }

/-- The layer produced by
`evolveConnections mLayer false 1 gaussOne 0 tape01 1 0`, written out. -/
def mLayerZ : SETLayer :=
  { mLayer with connections := [(0, 1), (1, 1)], zmap := [[2, 2], [0, 1]], weight := [0, 1] }

/-- Integer tape used by the fresh-marking evolution run below: the
draws `1, 0` (then zeros), producing the candidate pair `(1, 0)`. -/
def tape10 : ℕ → ℕ := fun m => [1, 0].getD m 0

/-- A concrete layer with `marked_indices = None`, exercising the
fresh-marking path of `evolve_connections` (line 194): with
`weight = [2, 1, -1]` and `ζ = 1/2`, `mark_connections` selects exactly
slot 1. -/
def nLayer : SETLayer :=
  { indim := 2, outdim := 2, epsilon := 11, zeta := 1 / 2, sparsity := 0, nParams := 3
    markedIndices := none, connections := [(0, 0), (1, 1), (0, 1)]
    zmap := [[0, 3], [1, 2]], weight := [2, 1, -1], bias := some [0, 0] }

/-- The layer produced by
`evolveConnections nLayer false 1 gaussOne 0 tape10 1 0`, written out. -/
def nLayerZ : SETLayer :=
  { nLayer with connections := [(0, 0), (1, 0), (0, 1)], zmap := [[0, 1], [2, 3]], weight := [2, 0, -1] }

end Synapses

namespace Synapses

/-! ### Helper lemmas about `setEach` -/

theorem setEach_nil {α : Type} (l : List α) (vs : List α) : setEach l [] vs = l := by
  rw [setEach]

theorem setEach_no_vals {α : Type} (l : List α) (i : ℕ) (is : List ℕ) :
    setEach l (i :: is) [] = l := by
  rw [setEach]

theorem setEach_cons {α : Type} (l : List α) (i : ℕ) (is : List ℕ) (v : α) (vs : List α) :
    setEach l (i :: is) (v :: vs) = setEach (l.set i v) is vs := by
  rw [setEach]

theorem setEach_length {α : Type} : ∀ (is : List ℕ) (vs : List α) (l : List α),
    (setEach l is vs).length = l.length := by
  intro is
  induction is with
  | nil => intro vs l; rw [setEach_nil]
  | cons i is ih =>
    intro vs l
    cases vs with
    | nil => rw [setEach_no_vals]
    | cons v vs => rw [setEach_cons, ih vs (l.set i v), List.length_set]

theorem setEach_getElem?_of_not_mem {α : Type} :
    ∀ (is : List ℕ) (vs : List α) (l : List α) (m : ℕ), m ∉ is →
    (setEach l is vs)[m]? = l[m]? := by
  intro is
  induction is with
  | nil => intro vs l m _; rw [setEach_nil]
  | cons i is ih =>
    intro vs l m hm
    cases vs with
    | nil => rw [setEach_no_vals]
    | cons v vs =>
      have h1 : i ≠ m := fun h => hm (h ▸ List.mem_cons_self i is)
      have h2 : m ∉ is := fun h => hm (List.mem_cons_of_mem _ h)
      rw [setEach_cons, ih vs (l.set i v) m h2, List.getElem?_set, if_neg h1]

theorem setEach_getElem?_at {α : Type} :
    ∀ (is : List ℕ) (vs : List α) (l : List α), is.Nodup →
    ∀ j, j < is.length → j < vs.length → is.getD j 0 < l.length →
    (setEach l is vs)[is.getD j 0]? = vs[j]? := by
  intro is
  induction is with
  | nil => intro vs l _ j hj; exact absurd hj (by simp)
  | cons i is ih =>
    intro vs l hnd j hj1 hj2 hlt
    cases vs with
    | nil => exact absurd hj2 (by simp)
    | cons v vs =>
      cases j with
      | zero =>
        have hnotmem : i ∉ is := (List.nodup_cons.mp hnd).1
        rw [List.getD_cons_zero] at hlt ⊢
        rw [setEach_cons, setEach_getElem?_of_not_mem is vs (l.set i v) i hnotmem,
          List.getElem?_set, if_pos rfl, if_pos hlt, List.getElem?_cons_zero]
      | succ j =>
        rw [List.getD_cons_succ, setEach_cons, List.getElem?_cons_succ]
        have hlt2 : is.getD j 0 < (l.set i v).length := by
          rw [List.length_set]; simpa using hlt
        exact ih vs (l.set i v) (List.nodup_cons.mp hnd).2 j
          (by simpa using hj1) (by simpa using hj2) hlt2

theorem setEach_getElem?_cases {α : Type} :
    ∀ (is : List ℕ) (vs : List α) (l : List α) (m : ℕ),
    (setEach l is vs)[m]? = l[m]? ∨
    ∃ j, j < is.length ∧ j < vs.length ∧ is.getD j 0 = m ∧
      (setEach l is vs)[m]? = vs[j]? := by
  intro is
  induction is with
  | nil => intro vs l m; exact Or.inl (by rw [setEach_nil])
  | cons i is ih =>
    intro vs l m
    cases vs with
    | nil => exact Or.inl (by rw [setEach_no_vals])
    | cons v vs =>
      rcases ih vs (l.set i v) m with h | ⟨j, hj1, hj2, hj3, hj4⟩
      · by_cases him : i = m
        · by_cases hlen : i < l.length
          · refine Or.inr ⟨0, by simp, by simp, by simpa using him, ?_⟩
            rw [setEach_cons, h, List.getElem?_set, if_pos him, if_pos hlen,
              List.getElem?_cons_zero]
          · refine Or.inl ?_
            rw [setEach_cons, h, List.getElem?_set, if_pos him, if_neg hlen, eq_comm,
              List.getElem?_eq_none_iff]
            omega
        · exact Or.inl (by rw [setEach_cons, h, List.getElem?_set, if_neg him])
      · refine Or.inr ⟨j + 1, by simpa using hj1, by simpa using hj2,
          by simpa using hj3, ?_⟩
        rw [setEach_cons, List.getElem?_cons_succ]
        exact hj4

theorem setEach_mem {α : Type} :
    ∀ (is : List ℕ) (vs : List α) (l : List α) (a : α),
    a ∈ setEach l is vs → a ∈ l ∨ a ∈ vs := by
  intro is
  induction is with
  | nil => intro vs l a h; rw [setEach_nil] at h; exact Or.inl h
  | cons i is ih =>
    intro vs l a h
    cases vs with
    | nil => rw [setEach_no_vals] at h; exact Or.inl h
    | cons v vs =>
      rw [setEach_cons] at h
      rcases ih vs (l.set i v) a h with h2 | h2
      · rcases List.mem_or_eq_of_mem_set h2 with h3 | h3
        · exact Or.inl h3
        · exact Or.inr (h3 ▸ List.mem_cons_self v vs)
      · exact Or.inr (List.mem_cons_of_mem v h2)

theorem setEach_nodup {α : Type} (is : List ℕ) (vs : List α) (l : List α)
    (hl : l.Nodup) (hvs : vs.Nodup) (hdisj : ∀ v ∈ vs, v ∉ l) :
    (setEach l is vs).Nodup := by
  rw [List.nodup_iff_getElem?_ne_getElem?]
  intro a b hab hblen
  have hlen := setEach_length is vs l
  have hbl : b < l.length := by rw [hlen] at hblen; exact hblen
  have hal : a < l.length := lt_trans hab hbl
  have vs_ne : ∀ j1 j2, j1 < vs.length → j2 < vs.length → j1 ≠ j2 →
      vs[j1]? ≠ vs[j2]? := by
    intro j1 j2 hj1 hj2 hne
    rcases Nat.lt_or_ge j1 j2 with h | h
    · exact (List.nodup_iff_getElem?_ne_getElem?.mp hvs) j1 j2 h hj2
    · have hlt : j2 < j1 := lt_of_le_of_ne h (Ne.symm hne)
      exact fun heq =>
        (List.nodup_iff_getElem?_ne_getElem?.mp hvs) j2 j1 hlt hj1 heq.symm
  rcases setEach_getElem?_cases is vs l a with ha | ⟨j1, hj1a, hj1b, hj1c, hj1d⟩ <;>
    rcases setEach_getElem?_cases is vs l b with hb | ⟨j2, hj2a, hj2b, hj2c, hj2d⟩
  · rw [ha, hb]
    exact (List.nodup_iff_getElem?_ne_getElem?.mp hl) a b hab hbl
  · rw [ha, hj2d, List.getElem?_eq_getElem hal, List.getElem?_eq_getElem hj2b]
    intro heq
    have hmem1 : l[a] ∈ l := List.getElem_mem hal
    have hmem2 : vs[j2] ∈ vs := List.getElem_mem hj2b
    exact hdisj _ hmem2 ((Option.some_inj.mp heq) ▸ hmem1)
  · rw [hb, hj1d, List.getElem?_eq_getElem hbl, List.getElem?_eq_getElem hj1b]
    intro heq
    have hmem1 : vs[j1] ∈ vs := List.getElem_mem hj1b
    have hmem2 : l[b] ∈ l := List.getElem_mem hbl
    exact hdisj _ hmem1 ((Option.some_inj.mp heq).symm ▸ hmem2)
  · rw [hj1d, hj2d]
    refine vs_ne j1 j2 hj1b hj2b ?_
    intro heq
    exact absurd (hj1c ▸ heq ▸ hj2c) (Nat.ne_of_lt hab)

/-! ### Helper lemmas about `generateConnections` -/

theorem candPairs_mem_bounds (indim outdim : ℕ) (tape : ℕ → ℕ) (base cnt : ℕ)
    (hi : 0 < indim) (ho : 0 < outdim) :
    ∀ p ∈ candPairs indim outdim tape base cnt, p.1 < indim ∧ p.2 < outdim := by
  intro p hp
  rcases List.mem_map.mp hp with ⟨j, _, hj2⟩
  rw [← hj2]
  exact ⟨Nat.mod_lt _ hi, Nat.mod_lt _ ho⟩

theorem genFresh_spec (indim outdim : ℕ) (existing : List (ℕ × ℕ)) (tape : ℕ → ℕ)
    (base n : ℕ) (hi : 0 < indim) (ho : 0 < outdim) :
    (genFresh indim outdim existing tape base n).Nodup ∧
    ∀ p ∈ genFresh indim outdim existing tape base n,
      p ∉ existing ∧ p.1 < indim ∧ p.2 < outdim := by
  constructor
  · exact List.Nodup.filter _ (List.nodup_dedup _)
  · intro p hp
    rcases List.mem_filter.mp hp with ⟨hp1, hp2⟩
    have hne : p ∉ existing := of_decide_eq_true hp2
    have hcand : p ∈ candPairs indim outdim tape base (pyInt15 n) :=
      List.mem_dedup.mp hp1
    exact ⟨hne, candPairs_mem_bounds indim outdim tape base (pyInt15 n) hi ho p hcand⟩

theorem generateConnections_ok (indim outdim : ℕ) (existing : List (ℕ × ℕ))
    (tape : ℕ → ℕ) (n : ℕ) (hi : 0 < indim) (ho : 0 < outdim) :
    ∀ (fuel base : ℕ) (news : List (ℕ × ℕ)) (b2 : ℕ),
    generateConnections indim outdim existing tape n fuel base = GenOutcome.ok (news, b2) →
    news.length = n ∧ news.Nodup ∧
      ∀ p ∈ news, p ∉ existing ∧ p.1 < indim ∧ p.2 < outdim := by
  intro fuel
  induction fuel with
  | zero => intro base news b2 h; exact absurd h (by simp [generateConnections])
  | succ fuel ih =>
    intro base news b2 h
    rw [generateConnections] at h
    by_cases h0 : (genFresh indim outdim existing tape base n).length = 0
    · rw [if_pos h0] at h; exact absurd h (by simp)
    · rw [if_neg h0] at h
      by_cases h1 : (genFresh indim outdim existing tape base n).length < n
      · rw [if_pos h1] at h
        exact ih _ _ _ h
      · rw [if_neg h1] at h
        have hinj := GenOutcome.ok.inj h
        have hnews : news = (genFresh indim outdim existing tape base n).take n :=
          (congrArg Prod.fst hinj).symm
        obtain ⟨hnd, hmem⟩ := genFresh_spec indim outdim existing tape base n hi ho
        subst hnews
        refine ⟨?_, ?_, ?_⟩
        · rw [List.length_take]; omega
        · exact (List.take_sublist _ _).nodup hnd
        · intro p hp
          exact hmem p ((List.take_sublist _ _).subset hp)


theorem evolveValues_length (init : Bool) (stdv : ℚ) (gauss : ℕ → ℚ) (gbase len : ℕ) :
    (evolveValues init stdv gauss gbase len).length = len := by
  cases init <;> simp [evolveValues]

theorem getD_mem_of_lt {α : Type} (l : List α) (d : α) (j : ℕ) (h : j < l.length) :
    l.getD j d ∈ l := by
  rw [List.getD_eq_getElem?_getD, List.getElem?_eq_getElem h, Option.getD_some]
  exact List.getElem_mem h

/-- Shape of a successful `evolve_connections` call: the generator
succeeded and the new state is the record update of lines 197-204. -/
theorem evolveConnections_ok (L Lnext : SETLayer) (init : Bool) (stdv : ℚ)
    (gauss : ℕ → ℚ) (gbase : ℕ) (tape : ℕ → ℕ) (fuel base : ℕ)
    (h : evolveConnections L init stdv gauss gbase tape fuel base = GenOutcome.ok Lnext) :
    ∃ news b2,
      generateConnections L.indim L.outdim L.connections tape
        (evolveIndices L).length fuel base = GenOutcome.ok (news, b2) ∧
      Lnext = { L with
        weight := setEach L.weight (evolveIndices L)
          (evolveValues init stdv gauss gbase (evolveIndices L).length)
        connections := setEach L.connections (evolveIndices L) news
        zmap := generateZmap (setEach L.connections (evolveIndices L) news)
          L.outdim L.nParams } := by
  unfold evolveConnections at h
  cases hg : generateConnections L.indim L.outdim L.connections tape
      (evolveIndices L).length fuel base with
  | ok pair =>
    obtain ⟨news, b2⟩ := pair
    rw [hg] at h
    exact ⟨news, b2, rfl, (GenOutcome.ok.inj h).symm⟩
  | emptyCat => rw [hg] at h; exact absurd h (by simp)
  | diverge => rw [hg] at h; exact absurd h (by simp)


/-- C6 (amended): `evolve_connections` does not clear the marked set —
`marked_indices` is exactly preserved by every completed `evolve()` call.
Consequently the next cycle recomputes fresh candidates only while
`marked_indices` is still `None`; a marked set stored by
`zero_connections` is reused by every later cycle. -/
theorem C6_evolve_preserves_marked (L Lnext : SETLayer) (init : Bool) (stdv : ℚ)
    (gauss : ℕ → ℚ) (gbase : ℕ) (tape : ℕ → ℕ) (fuel base : ℕ) :
    evolveConnections L init stdv gauss gbase tape fuel base = GenOutcome.ok Lnext →
    Lnext.markedIndices = L.markedIndices := by
  intro h
  obtain ⟨news, b2, _, hL⟩ := evolveConnections_ok L Lnext init stdv gauss gbase
    tape fuel base h
  rw [hL]

/-- C6 witness: a concrete completed evolution run on `mLayer`, whose
marked set `[0]` is preserved verbatim. -/
theorem C6_evolve_preserves_marked_witness : mLayerE.markedIndices = mLayer.markedIndices :=
  C6_evolve_preserves_marked mLayer mLayerE true 1 gaussOne 0 tape01 1 0
    (by with_unfolding_all decide)

/-- C6 counterexample: the claim says that after every `evolve()` call
the marked set is cleared (empty/absent).  On `mLayer`, whose
`marked_indices` is `[0]`, a completed `evolve(reinitialize=false)` call
leaves `marked_indices = [0]`: lines 186-204 never write
`self.marked_indices`. -/
theorem C6_counterexample :
    evolveConnections mLayer false 1 gaussOne 0 tape01 1 0 = GenOutcome.ok mLayerZ ∧
    mLayerZ.markedIndices = some [0] :=
  ⟨by with_unfolding_all decide, by with_unfolding_all decide⟩

theorem markConnections_nodup (w : List ℚ) (zeta : ℚ) :
    (markConnections w zeta).Nodup :=
  List.Nodup.filter _ (List.nodup_range w.length)

theorem markConnections_lt (w : List ℚ) (zeta : ℚ) :
    ∀ i ∈ markConnections w zeta, i < w.length := by
  intro i hi
  exact List.mem_range.mp (List.mem_filter.mp hi).1

/-- C4: every completed `evolve(reinitialize)` call mutates exactly the
marked slots `idxs`, where `idxs` is the slot list the call actually uses
(`evolveIndices`, line 193-196): the stored `marked_indices` when one is
pending, else the fresh `mark_connections` output — whose `Nodup` and
bounds hypotheses hold by `markConnections_nodup` and
`markConnections_lt`, so both paths of the claim are covered.  Frame: bias, the marked set,
the dimensions and the slot count are unchanged, and so are the weight
and connection entries of every non-marked slot.  Effect: the `j`-th
marked slot's weight becomes `stdv * gauss (gbase + j)` — the fresh
normal draw scaled by `stdv = sqrt(2/indim)`, tied to the source by
`stdv² · indim = 2` — when `reinitialize` is true and exactly `0` when
false; its connection entry becomes a pair that is distinct from every
pair active before the call (marked or not) and in bounds; and the zmap
is rebuilt in full from the updated connection set. -/
theorem C4_evolve_frame (L Lnext : SETLayer) (init : Bool) (stdv : ℚ)
    (gauss : ℕ → ℚ) (gbase : ℕ) (tape : ℕ → ℕ) (fuel base : ℕ) (idxs : List ℕ) :
    evolveIndices L = idxs →
    idxs.Nodup →
    (∀ i ∈ idxs, i < L.nParams) →
    L.weight.length = L.nParams →
    L.connections.length = L.nParams →
    0 < L.indim → 0 < L.outdim →
    stdv * stdv * (L.indim : ℚ) = 2 →
    evolveConnections L init stdv gauss gbase tape fuel base = GenOutcome.ok Lnext →
    (Lnext.bias = L.bias ∧ Lnext.markedIndices = L.markedIndices ∧
      Lnext.indim = L.indim ∧ Lnext.outdim = L.outdim ∧ Lnext.nParams = L.nParams) ∧
    (∀ m, m ∉ idxs → Lnext.weight[m]? = L.weight[m]? ∧
      Lnext.connections[m]? = L.connections[m]?) ∧
    (∀ j, j < idxs.length →
      Lnext.weight[idxs.getD j 0]? = some (if init then stdv * gauss (gbase + j) else 0)) ∧
    (∀ j, j < idxs.length → ∃ p, Lnext.connections[idxs.getD j 0]? = some p ∧
      p ∉ L.connections ∧ p.1 < L.indim ∧ p.2 < L.outdim) ∧
    Lnext.zmap = generateZmap Lnext.connections L.outdim L.nParams := by
  intro hidx hnd hbound hwl hcl hi ho _ h
  obtain ⟨news, b2, hg, hL⟩ := evolveConnections_ok L Lnext init stdv gauss gbase
    tape fuel base h
  rw [hidx] at hg hL
  obtain ⟨hlen, hnodup, hprops⟩ := generateConnections_ok L.indim L.outdim
    L.connections tape idxs.length hi ho fuel base news b2 hg
  have hvlen : (evolveValues init stdv gauss gbase idxs.length).length = idxs.length :=
    evolveValues_length init stdv gauss gbase idxs.length
  refine ⟨?_, ?_, ?_, ?_, ?_⟩
  · rw [hL]; exact ⟨rfl, rfl, rfl, rfl, rfl⟩
  · intro m hm
    rw [hL]
    exact ⟨setEach_getElem?_of_not_mem idxs _ L.weight m hm,
      setEach_getElem?_of_not_mem idxs news L.connections m hm⟩
  · intro j hj
    have hjd : idxs.getD j 0 < L.weight.length := by
      rw [hwl]; exact hbound _ (getD_mem_of_lt idxs 0 j hj)
    rw [hL]
    have := setEach_getElem?_at idxs (evolveValues init stdv gauss gbase idxs.length)
      L.weight hnd j hj (by rw [hvlen]; exact hj) hjd
    rw [this]
    cases init with
    | true => simp [evolveValues, List.getElem?_map, List.getElem?_range, hj]
    | false => simp [evolveValues, List.getElem?_replicate, hj]
  · intro j hj
    have hjn : j < news.length := by rw [hlen]; exact hj
    have hjd : idxs.getD j 0 < L.connections.length := by
      rw [hcl]; exact hbound _ (getD_mem_of_lt idxs 0 j hj)
    refine ⟨news[j], ?_, ?_⟩
    · rw [hL]
      have := setEach_getElem?_at idxs news L.connections hnd j hj hjn hjd
      rw [this, List.getElem?_eq_getElem hjn]
    · exact hprops _ (List.getElem_mem hjn)
  · rw [hL]

/-- C4 witness: two concrete completed evolution runs (`indim = 2`, so
`stdv = 1` satisfies `stdv²·indim = 2`).  On `nLayer` (`marked_indices`
absent, the fresh-marking path selecting slot 1) with
`reinitialize=false`, the marked slot's weight becomes `0` while slot 0
and the bias are untouched; on `mLayer` (stored marked set `[0]`, the
reuse path) with `reinitialize=true`, the non-marked slot 1 and the bias
are untouched. -/
theorem C4_evolve_frame_witness :
    (nLayerZ.weight[(1 : ℕ)]? = some 0 ∧
      nLayerZ.weight[(0 : ℕ)]? = nLayer.weight[(0 : ℕ)]? ∧
      nLayerZ.bias = nLayer.bias) ∧
    (mLayerE.weight[(1 : ℕ)]? = mLayer.weight[(1 : ℕ)]? ∧ mLayerE.bias = mLayer.bias) := by
  have hn := C4_evolve_frame nLayer nLayerZ false 1 gaussOne 0 tape10 1 0 [1]
    (by with_unfolding_all decide) (by decide) (by decide) (by decide) (by decide)
    (by decide) (by decide) (by with_unfolding_all decide)
    (by with_unfolding_all decide)
  have hm := C4_evolve_frame mLayer mLayerE true 1 gaussOne 0 tape01 1 0 [0]
    rfl (by decide) (by decide) (by decide) (by decide) (by decide) (by decide)
    (by with_unfolding_all decide) (by with_unfolding_all decide)
  refine ⟨⟨?_, (hn.2.1 0 (by decide)).1, hn.1.1⟩, (hm.2.1 1 (by decide)).1, hm.1.1⟩
  have h3 := hn.2.2.1 0 (by decide)
  simpa using h3


/-- Shape of a successful `__init__` run: the generator succeeded on the
derived `n_params` and the resulting layer is the record of lines 74-100. -/
theorem construct_ok (indim outdim : ℕ) (epsilon : ℚ) (sp : Option ℚ) (zeta : ℚ)
    (useBias : Bool) (stdv : ℚ) (gauss : ℕ → ℚ) (tape : ℕ → ℕ) (fuel : ℕ)
    (L : SETLayer)
    (h : construct indim outdim epsilon sp zeta useBias stdv gauss tape fuel =
      GenOutcome.ok L) :
    ∃ conns b2,
      generateConnections indim outdim [] tape
        (deriveNParams indim outdim (deriveSparsity indim outdim epsilon sp)) fuel 0 =
        GenOutcome.ok (conns, b2) ∧
      L = { indim := indim, outdim := outdim, epsilon := epsilon, zeta := zeta
            sparsity := deriveSparsity indim outdim epsilon sp
            nParams := deriveNParams indim outdim (deriveSparsity indim outdim epsilon sp)
            markedIndices := none, connections := conns
            zmap := generateZmap conns outdim
              (deriveNParams indim outdim (deriveSparsity indim outdim epsilon sp))
            weight := (List.range
              (deriveNParams indim outdim (deriveSparsity indim outdim epsilon sp))).map
              fun j => stdv * gauss j
            bias := if useBias then
              some ((List.range outdim).map fun j => stdv * gauss
                (deriveNParams indim outdim (deriveSparsity indim outdim epsilon sp) + j))
              else none } := by
  simp only [construct] at h
  cases hg : generateConnections indim outdim [] tape
      (deriveNParams indim outdim (deriveSparsity indim outdim epsilon sp)) fuel 0 with
  | ok pair =>
    obtain ⟨conns, b2⟩ := pair
    rw [hg] at h
    exact ⟨conns, b2, rfl, (GenOutcome.ok.inj h).symm⟩
  | emptyCat => rw [hg] at h; exact absurd h (by simp)
  | diverge => rw [hg] at h; exact absurd h (by simp)

theorem construct_invariant (indim outdim : ℕ) (epsilon : ℚ) (sp : Option ℚ)
    (zeta : ℚ) (useBias : Bool) (stdv : ℚ) (gauss : ℕ → ℚ) (tape : ℕ → ℕ)
    (fuel : ℕ) (L : SETLayer) (hi : 0 < indim) (ho : 0 < outdim)
    (h : construct indim outdim epsilon sp zeta useBias stdv gauss tape fuel =
      GenOutcome.ok L) :
    ConnInvariant L ∧ L.indim = indim ∧ L.outdim = outdim := by
  obtain ⟨conns, b2, hg, hL⟩ := construct_ok indim outdim epsilon sp zeta useBias
    stdv gauss tape fuel L h
  obtain ⟨hlen, hnodup, hprops⟩ := generateConnections_ok indim outdim [] tape _
    hi ho fuel 0 conns b2 hg
  subst hL
  exact ⟨⟨hlen, hnodup, fun p hp => (hprops p hp).2⟩, rfl, rfl⟩

theorem evolve_preserves_invariant (L Lnext : SETLayer) (init : Bool) (stdv : ℚ)
    (gauss : ℕ → ℚ) (gbase : ℕ) (tape : ℕ → ℕ) (fuel base : ℕ)
    (hInv : ConnInvariant L) (hi : 0 < L.indim) (ho : 0 < L.outdim)
    (h : evolveConnections L init stdv gauss gbase tape fuel base = GenOutcome.ok Lnext) :
    ConnInvariant Lnext ∧ Lnext.indim = L.indim ∧ Lnext.outdim = L.outdim := by
  obtain ⟨news, b2, hg, hL⟩ := evolveConnections_ok L Lnext init stdv gauss gbase
    tape fuel base h
  obtain ⟨hlen, hnodup, hprops⟩ := generateConnections_ok L.indim L.outdim
    L.connections tape _ hi ho fuel base news b2 hg
  obtain ⟨hcl, hcnd, hcb⟩ := hInv
  subst hL
  refine ⟨⟨?_, ?_, ?_⟩, rfl, rfl⟩
  · show (setEach L.connections (evolveIndices L) news).length = L.nParams
    rw [setEach_length]; exact hcl
  · exact setEach_nodup _ _ _ hcnd hnodup fun p hp => (hprops p hp).1
  · intro p hp
    rcases setEach_mem _ _ _ p hp with h2 | h2
    · exact hcb p h2
    · exact (hprops p h2).2

theorem layerStep_preserves (La Lb : SETLayer) (h : LayerStep La Lb)
    (hInv : ConnInvariant La) (hi : 0 < La.indim) (ho : 0 < La.outdim) :
    ConnInvariant Lb ∧ Lb.indim = La.indim ∧ Lb.outdim = La.outdim := by
  cases h with
  | zero => exact ⟨hInv, rfl, rfl⟩
  | evolve _ init stdv gauss gbase tape fuel base heq =>
    exact evolve_preserves_invariant La Lb init stdv gauss gbase tape fuel base
      hInv hi ho heq

/-- C1: the connection-set invariant — exactly `n_params` entries, no
duplicate pairs, all indices in bounds — holds for the layer produced by
construction and is preserved by every sequence of `zero_connections`
and completed `evolve_connections` calls, hence holds before and after
every `evolve()` call. -/
theorem C1_connection_invariant (indim outdim : ℕ) (epsilon zeta : ℚ)
    (sp : Option ℚ) (useBias : Bool) (stdv : ℚ) (gauss : ℕ → ℚ) (tape : ℕ → ℕ)
    (fuel : ℕ) (L0 L : SETLayer) :
    0 < indim → 0 < outdim →
    construct indim outdim epsilon sp zeta useBias stdv gauss tape fuel =
      GenOutcome.ok L0 →
    Relation.ReflTransGen LayerStep L0 L →
    ConnInvariant L := by
  intro hi ho hc hreach
  suffices hgood : ConnInvariant L ∧ 0 < L.indim ∧ 0 < L.outdim from hgood.1
  induction hreach with
  | refl =>
    obtain ⟨hInv, hd1, hd2⟩ := construct_invariant indim outdim epsilon sp zeta
      useBias stdv gauss tape fuel L0 hi ho hc
    exact ⟨hInv, hd1 ▸ hi, hd2 ▸ ho⟩
  | tail _ hstep ih =>
    obtain ⟨hInv, h1, h2⟩ := ih
    obtain ⟨hInv2, hd1, hd2⟩ := layerStep_preserves _ _ hstep hInv h1 h2
    exact ⟨hInv2, hd1 ▸ h1, hd2 ▸ h2⟩

/-- C1 witness: a concrete constructor run (`indim = outdim = 2`,
explicit sparsity `0`, so `n_params = 4`) whose connection set satisfies
the invariant. -/
theorem C1_connection_invariant_witness : ConnInvariant cLayer :=
  C1_connection_invariant 2 2 11 1 (some 0) false 1 gaussOne tapeC1 1 cLayer cLayer
    (by decide) (by decide) (by with_unfolding_all decide) Relation.ReflTransGen.refl


/-- C7 (amended): the sparsity/`n_params` derivation of `__init__` — an
explicit sparsity is used directly, otherwise
`sparsity = 1 − ε(indim+outdim)/(indim·outdim)`, clamped to `0.9` only
when it exceeds `1`, and `n_params = ⌊indim·outdim·(1−sparsity)⌋`.  No
`ConfigError` validation exists: see the counterexample for what happens
when the derived `n_params` is `0`. -/
theorem C7_sparsity_nparams (indim outdim : ℕ) (epsilon zeta : ℚ) (useBias : Bool)
    (stdv : ℚ) (gauss : ℕ → ℚ) (tape : ℕ → ℕ) (fuel : ℕ) (L : SETLayer) :
    (construct indim outdim epsilon none zeta useBias stdv gauss tape fuel =
        GenOutcome.ok L →
      L.nParams = (⌊(indim : ℚ) * (outdim : ℚ) * (1 - L.sparsity)⌋).toNat ∧
      (1 - epsilon * ((indim : ℚ) + (outdim : ℚ)) / ((indim : ℚ) * (outdim : ℚ)) ≤ 1 →
        L.sparsity =
          1 - epsilon * ((indim : ℚ) + (outdim : ℚ)) / ((indim : ℚ) * (outdim : ℚ))) ∧
      (1 < 1 - epsilon * ((indim : ℚ) + (outdim : ℚ)) / ((indim : ℚ) * (outdim : ℚ)) →
        L.sparsity = (9 : ℚ) / 10)) ∧
    (∀ sp : ℚ,
      construct indim outdim epsilon (some sp) zeta useBias stdv gauss tape fuel =
        GenOutcome.ok L →
      L.sparsity = sp ∧
      L.nParams = (⌊(indim : ℚ) * (outdim : ℚ) * (1 - sp)⌋).toNat) := by
  constructor
  · intro h
    obtain ⟨conns, b2, _, hL⟩ := construct_ok indim outdim epsilon none zeta useBias
      stdv gauss tape fuel L h
    have hsp : L.sparsity = deriveSparsity indim outdim epsilon none := by rw [hL]
    have hnp : L.nParams =
        deriveNParams indim outdim (deriveSparsity indim outdim epsilon none) := by
      rw [hL]
    have hds : deriveSparsity indim outdim epsilon none =
        if 1 < 1 - epsilon * ((indim : ℚ) + (outdim : ℚ)) / ((indim : ℚ) * (outdim : ℚ))
        then (9 : ℚ) / 10
        else 1 - epsilon * ((indim : ℚ) + (outdim : ℚ)) / ((indim : ℚ) * (outdim : ℚ)) :=
      rfl
    refine ⟨?_, ?_, ?_⟩
    · rw [hnp, hsp, deriveNParams]
    · intro hle
      rw [hsp, hds, if_neg (not_lt.mpr hle)]
    · intro hlt
      rw [hsp, hds, if_pos hlt]
  · intro sp h
    obtain ⟨conns, b2, _, hL⟩ := construct_ok indim outdim epsilon (some sp) zeta
      useBias stdv gauss tape fuel L h
    have hsp : L.sparsity = deriveSparsity indim outdim epsilon (some sp) := by rw [hL]
    have hnp : L.nParams =
        deriveNParams indim outdim (deriveSparsity indim outdim epsilon (some sp)) := by
      rw [hL]
    have hss : deriveSparsity indim outdim epsilon (some sp) = sp := rfl
    rw [hss] at hsp hnp
    exact ⟨hsp, by rw [hnp, deriveNParams]⟩

/-- C7 witness: the concrete constructor run behind `cLayer`
(explicit sparsity `0`, `indim = outdim = 2`), whose `n_params` is
`⌊2·2·(1−0)⌋ = 4`. -/
theorem C7_sparsity_nparams_witness :
    cLayer.sparsity = 0 ∧
    cLayer.nParams = (⌊((2 : ℕ) : ℚ) * ((2 : ℕ) : ℚ) * (1 - 0)⌋).toNat :=
  (C7_sparsity_nparams 2 2 11 1 false 1 gaussOne tapeC1 1 cLayer).2 0
    (by with_unfolding_all decide)

/-- C7 counterexample: the claim says construction fails with a
`ConfigError` when the derived `n_params < 1`.  With explicit
`sparsity = 1` the derived `n_params` is `0`, and `__init__` performs no
validation at all: it proceeds into `generate_connections(0)`, which
crashes at line 133 with the `torch.cat([])` `RuntimeError`
(`GenOutcome.emptyCat`) — there is no `ConfigError` (nor any
`indim`/`outdim` validation) anywhere in the source. -/
theorem C7_counterexample :
    construct 2 2 11 (some 1) 1 true 1 gaussOne tape01 1 = GenOutcome.emptyCat := by
  with_unfolding_all decide

theorem dedup_all_eq {α : Type} [DecidableEq α] :
    ∀ (l : List α) (a : α), l ≠ [] → (∀ x ∈ l, x = a) → l.dedup = [a] := by
  intro l
  induction l with
  | nil => intro a h _; exact absurd rfl h
  | cons x xs ih =>
    intro a _ hall
    have hx : x = a := hall x (List.mem_cons_self x xs)
    cases xs with
    | nil =>
      subst hx
      rw [List.dedup_cons_of_not_mem (by simp), List.dedup_nil]
    | cons y ys =>
      have hxs : (y :: ys).dedup = [a] :=
        ih a (by simp) fun z hz => hall z (List.mem_cons_of_mem _ hz)
      have hy : y = a := hall y (List.mem_cons_of_mem _ (List.mem_cons_self y ys))
      rw [hx, List.dedup_cons_of_mem (hy ▸ List.mem_cons_self y ys), hxs]

theorem gen11_diverge (tape : ℕ → ℕ) :
    ∀ fuel base, generateConnections 1 1 [] tape 22 fuel base = GenOutcome.diverge := by
  intro fuel
  induction fuel with
  | zero => intro base; rfl
  | succ fuel ih =>
    intro base
    have hfresh : genFresh 1 1 [] tape base 22 = [(0, 0)] := by
      rw [genFresh]
      have hc : (candPairs 1 1 tape base (pyInt15 22)).dedup = [(0, 0)] := by
        apply dedup_all_eq
        · have hlen : (candPairs 1 1 tape base (pyInt15 22)).length = 33 := by
            simp [candPairs, pyInt15]
          intro hnil
          rw [hnil] at hlen
          simp at hlen
        · intro x hx
          rcases List.mem_map.mp hx with ⟨j, _, hj⟩
          rw [← hj]
          simp [Nat.mod_one]
      rw [hc]
      simp
    rw [generateConnections, hfresh, if_neg (by decide), if_pos (by decide)]
    exact ih (base + 2 * pyInt15 22)

/-- C9: connection generation does not terminate on every input, and no
`GenerationExhausted` error path exists.  Failing input: the constructor
call `SETLayer(1, 1)` with the default `epsilon = 11`.  The derived
sparsity is `1 − 22 = −21` (the clamp at line 85 only fires above `1`),
so `n_params = 22`, yet a 1×1 layer has only one possible pair: every
sampling round finds at most one fresh pair, `len(new_locs) < 22` always
holds, and `generate_connections` at lines 136-137 recurses forever —
whatever the random stream and however much fuel the model grants. -/
theorem C9_construct_diverges (zeta : ℚ) (useBias : Bool) (stdv : ℚ)
    (gauss : ℕ → ℚ) (tape : ℕ → ℕ) (fuel : ℕ) :
    construct 1 1 11 none zeta useBias stdv gauss tape fuel = GenOutcome.diverge := by
  have hn : deriveNParams 1 1 (deriveSparsity 1 1 11 none) = 22 := by
    with_unfolding_all decide
  simp only [construct]
  rw [hn, gen11_diverge tape fuel 0]

/-- C8 (amended): `forward` performs no feature-width validation and no
`DimensionMismatch` error exists.  With bias present, a call succeeds
exactly when every active input index is within every batch row (in
particular for any width `≥ indim`, equal or not), and otherwise fails
with the `IndexError` of the advanced indexing `x[:, inds]` at
line 230 — never with a width comparison against `indim`. -/
theorem C8_no_width_check (L : SETLayer) (b : List ℚ) (x : List (List ℚ)) :
    L.bias = some b →
    ((∀ r ∈ x, ∀ c ∈ L.connections, c.1 < r.length) →
      ∃ y, forward L x = FwdResult.ok y) ∧
    (¬ (∀ r ∈ x, ∀ c ∈ L.connections, c.1 < r.length) →
      forward L x = FwdResult.indexError) := by
  intro hb
  constructor
  · intro hin
    have hcond : (x.all fun r => L.connections.all fun c => decide (c.1 < r.length)) = true := by
      rw [List.all_eq_true]
      intro r hr
      rw [List.all_eq_true]
      intro c hc
      exact decide_eq_true (hin r hr c hc)
    unfold forward
    rw [if_pos hcond, hb]
    exact ⟨_, rfl⟩
  · intro hin
    have hcond : ¬ ((x.all fun r => L.connections.all fun c => decide (c.1 < r.length)) = true) := by
      intro hall
      apply hin
      intro r hr c hc
      exact of_decide_eq_true ((List.all_eq_true.mp ((List.all_eq_true.mp hall) r hr)) c hc)
    unfold forward
    rw [if_neg hcond]

/-- C8 witness: on `fLayer` (`indim = 2`, active input indices `0` and
`1`), an input row of width 1 makes the gather fail with the index
error. -/
theorem C8_no_width_check_witness : forward fLayer [[5]] = FwdResult.indexError :=
  (C8_no_width_check fLayer [10, 20] [[5]] rfl).2 (by with_unfolding_all decide)

/-- C8 counterexample: the claim says `forward` fails with a
`DimensionMismatch` whenever the input feature width differs from
`indim`.  On `fLayer` (`indim = 2`) an input of width 3 succeeds —
`x[:, inds]` only reads columns 0 and 1 and no width check exists. -/
theorem C8_counterexample : forward fLayer [[5, 7, 9]] = FwdResult.ok [[20, 41]] := by
  with_unfolding_all decide

/-- C2 counterexample: the claim says an output unit yields zero when
bias is disabled.  With bias disabled `forward` never returns: line 235
(`return z + self.bias`) adds `None` and raises a `TypeError`, modelled
by `FwdResult.biasTypeError`. -/
theorem C2_counterexample : forward nbLayer [[5, 7]] = FwdResult.biasTypeError := by
  with_unfolding_all decide


theorem getD_eq_getElem_of_lt {α : Type} (l : List α) (d : α) (s : ℕ)
    (h : s < l.length) : l.getD s d = l[s] := by
  rw [List.getD_eq_getElem?_getD, List.getElem?_eq_getElem h, Option.getD_some]

theorem slotProducts_length (conns : List (ℕ × ℕ)) (w : List ℚ) (r : List ℚ) :
    (slotProducts conns w r).length = min conns.length w.length := by
  simp [slotProducts]

/-- The virtual null slot: reading the appended zero column at the
sentinel index `n_params` yields `0`. -/
theorem kz_getD_sentinel (conns : List (ℕ × ℕ)) (w r : List ℚ)
    (heq : w.length = conns.length) :
    (slotProducts conns w r ++ [0]).getD conns.length 0 = 0 := by
  have hlen : (slotProducts conns w r).length = conns.length := by
    rw [slotProducts_length, heq, min_self]
  rw [List.getD_eq_getElem?_getD, List.getElem?_append_right (by rw [hlen]), hlen]
  simp

/-- Reading the gathered product column at a real slot index. -/
theorem kz_getD_lt (conns : List (ℕ × ℕ)) (w r : List ℚ) (s : ℕ)
    (hs : s < conns.length) (hsw : s < w.length) :
    (slotProducts conns w r ++ [0]).getD s 0 =
      r.getD (conns.getD s (0, 0)).1 0 * w.getD s 0 := by
  have hlen : s < (slotProducts conns w r).length := by
    rw [slotProducts_length]
    omega
  rw [List.getD_eq_getElem?_getD, List.getElem?_append, if_pos hlen,
    List.getElem?_eq_getElem hlen, Option.getD_some,
    getD_eq_getElem_of_lt conns (0, 0) s hs, getD_eq_getElem_of_lt w 0 s hsw]
  simp [slotProducts, List.getElem_zip]

theorem zipWith_add_map_range (n : ℕ) (F : ℕ → ℚ) (b : List ℚ) (hb : b.length = n) :
    List.zipWith (· + ·) ((List.range n).map F) b =
      (List.range n).map fun o => F o + b.getD o 0 := by
  apply List.ext_getElem
  · simp [hb]
  · intro o h1 h2
    have ho : o < n := by simpa using h2
    have hob : o < b.length := by rw [hb]; exact ho
    rw [List.getElem_zipWith, List.getElem_map, List.getElem_map, List.getElem_range,
      getD_eq_getElem_of_lt b 0 o hob]

/-- One batch row of `forward` (lines 230-234) computes, for each output
`o`, the sum over the slots targeting `o` of
`input[inputIndex(s)] * weight[s]`: padding cells gather the virtual
zero slot and vanish from the sum. -/
theorem forwardRow_eq (conns : List (ℕ × ℕ)) (w : List ℚ) (nP outdim : ℕ)
    (r : List ℚ) (hcl : conns.length = nP) (hwl : w.length = nP) :
    forwardRow conns w (generateZmap conns outdim nP) r =
      (List.range outdim).map fun o =>
        (((List.range nP).filter fun s => decide ((conns.getD s (0, 0)).2 = o)).map
          fun s => r.getD (conns.getD s (0, 0)).1 0 * w.getD s 0).sum := by
  rw [forwardRow, generateZmap, zmapRows, List.map_map, List.map_map]
  apply List.map_congr_left
  intro o _
  simp only [Function.comp]
  rw [List.map_append, List.sum_append, List.map_replicate, List.sum_replicate]
  have hsent : (slotProducts conns w r ++ [0]).getD nP 0 = 0 := by
    rw [← hcl]
    exact kz_getD_sentinel conns w r (by rw [hcl, hwl])
  rw [hsent, smul_zero, add_zero, hcl]
  congr 1
  apply List.map_congr_left
  intro t ht
  have ht2 : t < conns.length := by
    rw [hcl]
    exact List.mem_range.mp (List.mem_filter.mp ht).1
  exact kz_getD_lt conns w r t ht2 (by rw [hwl, ← hcl]; exact ht2)

/-- C2 (amended): with bias present and all active input indices within
the batch rows, `forward` returns, per batch row `r` and output `o`,
`Σ_{slots s targeting o} r[inputIndex s] · weight[s] + bias[o]` — via
the gather/multiply/append-zero-column/zmap-gather/sum pipeline of
lines 229-235 — and an output with zero real fan-in receives exactly its
bias value.  (When bias is disabled, `forward` does not return a value
at all: see the counterexample.) -/
theorem C2_forward_formula (L : SETLayer) (b : List ℚ) (x : List (List ℚ)) :
    L.bias = some b → b.length = L.outdim →
    L.connections.length = L.nParams → L.weight.length = L.nParams →
    L.zmap = generateZmap L.connections L.outdim L.nParams →
    (∀ r ∈ x, ∀ c ∈ L.connections, c.1 < r.length) →
    forward L x = FwdResult.ok (x.map fun r =>
      (List.range L.outdim).map fun o =>
        (((List.range L.nParams).filter fun s =>
            decide ((L.connections.getD s (0, 0)).2 = o)).map
          fun s => r.getD (L.connections.getD s (0, 0)).1 0 * L.weight.getD s 0).sum
        + b.getD o 0) ∧
    (∀ (r : List ℚ) (o : ℕ), fanIn L.connections o = 0 →
      (((List.range L.nParams).filter fun s =>
          decide ((L.connections.getD s (0, 0)).2 = o)).map
        fun s => r.getD (L.connections.getD s (0, 0)).1 0 * L.weight.getD s 0).sum
      + b.getD o 0 = b.getD o 0) := by
  intro hb hbl hcl hwl hz hin
  constructor
  · have hcond : (x.all fun r => L.connections.all fun c => decide (c.1 < r.length)) = true := by
      rw [List.all_eq_true]
      intro r hr
      rw [List.all_eq_true]
      intro c hc
      exact decide_eq_true (hin r hr c hc)
    unfold forward
    rw [if_pos hcond, hb]
    show FwdResult.ok (x.map fun r =>
        List.zipWith (· + ·) (forwardRow L.connections L.weight L.zmap r) b) =
      FwdResult.ok _
    congr 1
    apply List.map_congr_left
    intro r _
    rw [hz, forwardRow_eq L.connections L.weight L.nParams L.outdim r hcl hwl,
      zipWith_add_map_range L.outdim _ b hbl]
  · intro r o hfan
    have hnil : ((List.range L.nParams).filter fun s =>
        decide ((L.connections.getD s (0, 0)).2 = o)) = [] := by
      rw [← hcl]
      exact List.length_eq_zero.mp hfan
    rw [hnil]
    simp

/-- C2 witness: on `fLayer` with input `[[5, 7]]` the formula gives
`[5·2 + 10, 7·3 + 20] = [20, 41]`. -/
theorem C2_forward_formula_witness : forward fLayer [[5, 7]] = FwdResult.ok [[20, 41]] := by
  have h := C2_forward_formula fLayer [10, 20] [[5, 7]] rfl (by decide) (by decide)
    (by decide) (by with_unfolding_all decide) (by with_unfolding_all decide)
  exact h.1.trans (by with_unfolding_all decide)


theorem foldl_max_le_init : ∀ (l : List (List ℕ)) (a : ℕ),
    a ≤ l.foldl (fun m r => max m r.length) a := by
  intro l
  induction l with
  | nil => intro a; exact le_refl a
  | cons r l ih =>
    intro a
    exact le_trans (le_max_left a r.length) (ih (max a r.length))

theorem le_foldl_max : ∀ (l : List (List ℕ)) (a : ℕ) (r : List ℕ), r ∈ l →
    r.length ≤ l.foldl (fun m t => max m t.length) a := by
  intro l
  induction l with
  | nil => intro a r hr; exact absurd hr (List.not_mem_nil r)
  | cons t l ih =>
    intro a r hr
    rcases List.mem_cons.mp hr with h | h
    · subst h
      exact le_trans (le_max_right a r.length) (foldl_max_le_init l _)
    · exact ih (max a t.length) r h

theorem foldl_max_cases : ∀ (l : List (List ℕ)) (a : ℕ),
    l.foldl (fun m t => max m t.length) a = a ∨
    ∃ r ∈ l, l.foldl (fun m t => max m t.length) a = r.length := by
  intro l
  induction l with
  | nil => intro a; exact Or.inl rfl
  | cons t l ih =>
    intro a
    rcases ih (max a t.length) with h | ⟨r, hr, h⟩
    · rcases le_total a t.length with hle | hle
      · exact Or.inr ⟨t, List.mem_cons_self t l, by rw [List.foldl_cons, h, max_eq_right hle]⟩
      · exact Or.inl (by rw [List.foldl_cons, h, max_eq_left hle])
    · exact Or.inr ⟨r, List.mem_cons_of_mem t hr, h⟩

theorem fanIn_le_zmapWidth (conns : List (ℕ × ℕ)) (outdim o : ℕ) (ho : o < outdim) :
    fanIn conns o ≤ zmapWidth conns outdim := by
  rw [zmapWidth, fanIn]
  exact le_foldl_max (zmapRows conns outdim) 0 _
    (List.mem_map.mpr ⟨o, List.mem_range.mpr ho, rfl⟩)

theorem zmapWidth_attained (conns : List (ℕ × ℕ)) (outdim : ℕ) (ho : 0 < outdim) :
    ∃ o, o < outdim ∧ fanIn conns o = zmapWidth conns outdim := by
  rcases foldl_max_cases (zmapRows conns outdim) 0 with h | ⟨r, hr, h⟩
  · refine ⟨0, ho, ?_⟩
    have hle := fanIn_le_zmapWidth conns outdim 0 ho
    have hw : zmapWidth conns outdim = 0 := by rw [zmapWidth, h]
    omega
  · rcases List.mem_map.mp hr with ⟨o, ho2, rfl⟩
    exact ⟨o, List.mem_range.mp ho2, by rw [fanIn, zmapWidth, h]⟩

theorem generateZmap_getD (conns : List (ℕ × ℕ)) (outdim nP o : ℕ) (ho : o < outdim) :
    (generateZmap conns outdim nP).getD o [] =
      ((List.range conns.length).filter fun s => decide ((conns.getD s (0, 0)).2 = o)) ++
        List.replicate (zmapWidth conns outdim - fanIn conns o) nP := by
  rw [generateZmap, zmapRows, List.map_map]
  rw [getD_eq_getElem_of_lt _ [] o (by simpa using ho)]
  rw [List.getElem_map, List.getElem_range]
  rfl

/-- C5: properties of the rebuilt fan-in map.  The table has `outdim`
rows; every row has exactly `zmapWidth` cells, where `zmapWidth`
(`longest` in the source) bounds every output's fan-in and is attained
by some output — i.e. it is the maximum over all outputs of the count of
connections targeting that output; every connection entry `(s, o)` puts
its weight-slot index `s` in row `o`; and every cell of a row beyond
that row's true fan-in holds the sentinel index `n_params`. -/
theorem C5_zmap_spec (conns : List (ℕ × ℕ)) (outdim nParams : ℕ) :
    (generateZmap conns outdim nParams).length = outdim ∧
    (∀ o, o < outdim →
      ((generateZmap conns outdim nParams).getD o []).length = zmapWidth conns outdim) ∧
    (∀ o, o < outdim → fanIn conns o ≤ zmapWidth conns outdim) ∧
    (0 < outdim → ∃ o, o < outdim ∧ fanIn conns o = zmapWidth conns outdim) ∧
    (∀ s, s < conns.length → ∀ o, o < outdim → (conns.getD s (0, 0)).2 = o →
      s ∈ (generateZmap conns outdim nParams).getD o []) ∧
    (∀ o, o < outdim → ∀ j, fanIn conns o ≤ j → j < zmapWidth conns outdim →
      ((generateZmap conns outdim nParams).getD o []).getD j 0 = nParams) := by
  have hflen : ∀ o, ((List.range conns.length).filter fun s =>
      decide ((conns.getD s (0, 0)).2 = o)).length = fanIn conns o := fun o => rfl
  refine ⟨?_, ?_, ?_, ?_, ?_, ?_⟩
  · simp [generateZmap, zmapRows]
  · intro o ho
    rw [generateZmap_getD conns outdim nParams o ho, List.length_append,
      List.length_replicate, hflen o]
    have hle := fanIn_le_zmapWidth conns outdim o ho
    omega
  · exact fun o ho => fanIn_le_zmapWidth conns outdim o ho
  · exact zmapWidth_attained conns outdim
  · intro t ht o ho heq
    rw [generateZmap_getD conns outdim nParams o ho]
    exact List.mem_append_left _
      (List.mem_filter.mpr ⟨List.mem_range.mpr ht, decide_eq_true heq⟩)
  · intro o ho j hj1 hj2
    rw [generateZmap_getD conns outdim nParams o ho]
    rw [List.getD_eq_getElem?_getD,
      List.getElem?_append_right (by rw [hflen o]; exact hj1), hflen o,
      List.getElem?_replicate, if_pos (by omega)]
    simp

/-- C5 witness: for the connection set `[(0,0), (1,1), (0,1)]`
(`outdim = 2`, `n_params = 3`), slot 1 targets output 1 and indeed
appears in zmap row 1. -/
theorem C5_zmap_spec_witness :
    (1 : ℕ) ∈ (generateZmap [(0, 0), (1, 1), (0, 1)] 2 3).getD 1 [] := by
  have h := C5_zmap_spec [(0, 0), (1, 1), (0, 1)] 2 3
  exact h.2.2.2.2.1 1 (by decide) 1 (by decide) (by decide)


/-! ### Order facts for the `topk` model -/

instance descOrder_isTrans (w : List ℚ) : IsTrans ℕ (descOrder w) := by
  constructor
  intro a b c hab hbc
  rcases hab with h1 | ⟨h1, h1b⟩ <;> rcases hbc with h2 | ⟨h2, h2b⟩
  · exact Or.inl (lt_trans h2 h1)
  · exact Or.inl (by rw [← h2]; exact h1)
  · exact Or.inl (by rw [h1]; exact h2)
  · exact Or.inr ⟨h1.trans h2, le_trans h1b h2b⟩

instance descOrder_isTotal (w : List ℚ) : IsTotal ℕ (descOrder w) := by
  constructor
  intro a b
  rcases lt_trichotomy (w.getD a 0) (w.getD b 0) with h | h | h
  · exact Or.inr (Or.inl h)
  · rcases le_total a b with hab | hab
    · exact Or.inl (Or.inr ⟨h, hab⟩)
    · exact Or.inr (Or.inr ⟨h.symm, hab⟩)
  · exact Or.inl (Or.inl h)

instance ascOrder_isTrans (w : List ℚ) : IsTrans ℕ (ascOrder w) := by
  constructor
  intro a b c hab hbc
  rcases hab with h1 | ⟨h1, h1b⟩ <;> rcases hbc with h2 | ⟨h2, h2b⟩
  · exact Or.inl (lt_trans h1 h2)
  · exact Or.inl (by rw [← h2]; exact h1)
  · exact Or.inl (by rw [h1]; exact h2)
  · exact Or.inr ⟨h1.trans h2, le_trans h1b h2b⟩

instance ascOrder_isTotal (w : List ℚ) : IsTotal ℕ (ascOrder w) := by
  constructor
  intro a b
  rcases lt_trichotomy (w.getD a 0) (w.getD b 0) with h | h | h
  · exact Or.inl (Or.inl h)
  · rcases le_total a b with hab | hab
    · exact Or.inl (Or.inr ⟨h, hab⟩)
    · exact Or.inr (Or.inr ⟨h.symm, hab⟩)
  · exact Or.inr (Or.inl h)

theorem topkIdx_true (w : List ℚ) (k : ℕ) :
    topkIdx w k true = (List.insertionSort (descOrder w) (List.range w.length)).take k :=
  rfl

theorem topkIdx_false (w : List ℚ) (k : ℕ) :
    topkIdx w k false = (List.insertionSort (ascOrder w) (List.range w.length)).take k :=
  rfl

/-! ### Counting lemmas -/

theorem map_getD_range : ∀ (w : List ℚ),
    (List.range w.length).map (fun i => w.getD i 0) = w := by
  intro w
  induction w with
  | nil => rfl
  | cons a w ih =>
    rw [List.length_cons, List.range_succ_eq_map, List.map_cons, List.map_map]
    congr 1

theorem countP_range_getD (w : List ℚ) (p : ℚ → Bool) :
    (List.range w.length).countP (fun i => p (w.getD i 0)) = w.countP p := by
  conv_rhs => rw [← map_getD_range w]
  rw [List.countP_map]
  rfl

theorem countP_range_mem (T : List ℕ) (n : ℕ) (hT : T.Nodup) (hsub : ∀ i ∈ T, i < n)
    (p : ℕ → Bool) :
    (List.range n).countP (fun i => p i && decide (i ∈ T)) = T.countP p := by
  rw [List.countP_eq_length_filter, List.countP_eq_length_filter]
  have hperm : ((List.range n).filter fun i => p i && decide (i ∈ T)).Perm (T.filter p) := by
    rw [List.perm_ext_iff_of_nodup ((List.nodup_range n).filter _) (hT.filter _)]
    intro a
    simp only [List.mem_filter, List.mem_range, Bool.and_eq_true, decide_eq_true_eq]
    constructor
    · rintro ⟨_, hp, hmem⟩
      exact ⟨hmem, hp⟩
    · rintro ⟨hmem, hp⟩
      exact ⟨hsub a hmem, hp, hmem⟩
  exact hperm.length_eq

theorem countP_or_disjoint : ∀ (l : List ℕ) (a b : ℕ → Bool),
    (∀ i ∈ l, ¬(a i = true ∧ b i = true)) →
    l.countP (fun i => a i || b i) = l.countP a + l.countP b := by
  intro l
  induction l with
  | nil => intro a b _; rfl
  | cons x l ih =>
    intro a b hd
    rw [List.countP_cons, List.countP_cons, List.countP_cons,
      ih a b fun i hi => hd i (List.mem_cons_of_mem _ hi)]
    have hx := hd x (List.mem_cons_self x l)
    cases ha : a x <;> cases hb : b x <;> simp [ha, hb] at hx ⊢ <;> omega

theorem countP_not_bool (l : List ℕ) (p : ℕ → Bool) :
    l.countP (fun a => decide ¬p a = true) = l.countP (fun i => !(p i)) := by
  apply List.countP_congr
  intro x _
  cases hx : p x <;> simp [hx]

/-- Counting in a sorted prefix.  If `s` is `r`-sorted, every member is a
`pm`- or a `qm`-element (exclusively), `pm`-elements never come `r`-after
`qm`-elements, and there are at most `k ≤ |s|` many `pm`-elements, then
the length-`k` prefix of `s` contains all `pm`-elements, and exactly
`k - countP pm s` many `qm`-elements. -/
theorem countP_take_of_sorted (r : ℕ → ℕ → Prop) [DecidableRel r] (s : List ℕ)
    (k : ℕ) (pm qm : ℕ → Bool)
    (hs : List.Sorted r s) (hk : k ≤ s.length)
    (hcover : ∀ i ∈ s, pm i = true ∨ qm i = true)
    (hdisj : ∀ i ∈ s, ¬(pm i = true ∧ qm i = true))
    (hsep : ∀ i j, pm i = true → qm j = true → ¬ r j i)
    (hPk : s.countP pm ≤ k) :
    (s.take k).countP qm = k - s.countP pm := by
  have hsplit : s = s.take k ++ s.drop k := (List.take_append_drop k s).symm
  have hTlen : (s.take k).length = k := by rw [List.length_take]; omega
  have hpw : ∀ i ∈ s.take k, ∀ j ∈ s.drop k, r i j := by
    have hp : List.Pairwise r (s.take k ++ s.drop k) := by
      rw [List.take_append_drop]
      exact hs
    exact (List.pairwise_append.mp hp).2.2
  have hscount : s.countP pm = (s.take k).countP pm + (s.drop k).countP pm := by
    conv_lhs => rw [hsplit]
    exact List.countP_append _ _ _
  have hPdrop : (s.drop k).countP pm = 0 := by
    by_contra hne
    rcases List.countP_pos_iff.mp (Nat.pos_of_ne_zero hne) with ⟨j, hjD, hjp⟩
    have hallT : ∀ i ∈ s.take k, pm i = true := by
      intro i hiT
      rcases hcover i ((List.take_sublist k s).subset hiT) with h | h
      · exact h
      · exact absurd (hpw i hiT j hjD) (hsep j i hjp h)
    have hTcount : (s.take k).countP pm = k := by
      rw [List.countP_eq_length ..|>.mpr hallT, hTlen]
    omega
  have hTP : (s.take k).countP pm = s.countP pm := by omega
  have hTq : (s.take k).countP qm = (s.take k).countP (fun i => !(pm i)) := by
    apply List.countP_congr
    intro i hiT
    have hiS : i ∈ s := (List.take_sublist k s).subset hiT
    cases hpm : pm i with
    | false =>
      have hq : qm i = true := (hcover i hiS).resolve_left (by simp [hpm])
      simp [hq, hpm]
    | true =>
      have hq : qm i ≠ true := fun hq => hdisj i hiS ⟨hpm, hq⟩
      simp [hpm, hq]
  have hlen2 : (s.take k).length =
      (s.take k).countP pm + (s.take k).countP (fun i => !(pm i)) := by
    rw [List.length_eq_countP_add_countP (p := pm), countP_not_bool]
  omega


theorem countP_pos_add_countP_neg (w : List ℚ) (h0 : ∀ v ∈ w, v ≠ 0) :
    w.countP (fun v => decide (0 < v)) + w.countP (fun v => decide (v < 0)) = w.length := by
  rw [List.length_eq_countP_add_countP (p := fun v => decide (0 < v))]
  congr 1
  apply List.countP_congr
  intro v hv
  have hiff : (v < 0) ↔ ¬ (0 < v) :=
    ⟨fun h => not_lt.mpr (le_of_lt h),
     fun h => lt_of_le_of_ne (not_lt.mp h) (h0 v hv)⟩
  simp only [decide_eq_true_eq]
  exact hiff

theorem toNat_floor_mul_le (N : ℕ) (zeta : ℚ) (hz1 : zeta ≤ 1) :
    (⌊(N : ℚ) * zeta⌋).toNat ≤ N := by
  rw [Int.toNat_le]
  calc ⌊(N : ℚ) * zeta⌋ ≤ ⌊((N : ℕ) : ℚ)⌋ :=
        Int.floor_le_floor (by
          have hN : (0 : ℚ) ≤ (N : ℚ) := Nat.cast_nonneg N
          calc (N : ℚ) * zeta ≤ (N : ℚ) * 1 := mul_le_mul_of_nonneg_left hz1 hN
            _ = (N : ℚ) := mul_one _)
    _ = (N : ℤ) := Int.floor_natCast N

theorem sorted_take_drop_rel (r : ℕ → ℕ → Prop) [DecidableRel r] (s : List ℕ)
    (k : ℕ) (hs : List.Sorted r s) {i j : ℕ} (hi : i ∈ s.take k)
    (hj : j ∈ s.drop k) : r i j := by
  have hp : List.Pairwise r (s.take k ++ s.drop k) := by
    rw [List.take_append_drop]
    exact hs
  exact (List.pairwise_append.mp hp).2.2 i hi j hj

theorem mem_drop_of_not_mem_take {s : List ℕ} {k j : ℕ} (hjs : j ∈ s)
    (hjn : j ∉ s.take k) : j ∈ s.drop k := by
  have hj2 : j ∈ s.take k ++ s.drop k := by
    rw [List.take_append_drop]
    exact hjs
  rcases List.mem_append.mp hj2 with h | h
  · exact absurd h hjn
  · exact h

/-- Number of `qm`-valued slots among the `k` slots whose weights `topk`
ranks first: all `pm`-valued slots fit in the prefix, so exactly
`k - countP pm w` many `qm`-slots are selected. -/
theorem topk_count_aux (w : List ℚ) (k : ℕ) (r : ℕ → ℕ → Prop) [DecidableRel r]
    [IsTotal ℕ r] [IsTrans ℕ r] (pm qm : ℚ → Bool)
    (hcover : ∀ v ∈ w, pm v = true ∨ qm v = true)
    (hdisj : ∀ v : ℚ, ¬(pm v = true ∧ qm v = true))
    (hsep : ∀ i j : ℕ, pm (w.getD i 0) = true → qm (w.getD j 0) = true → ¬ r j i)
    (hk1 : w.countP pm ≤ k) (hk2 : k ≤ w.length) :
    ((List.insertionSort r (List.range w.length)).take k).countP
      (fun i => qm (w.getD i 0)) = k - w.countP pm := by
  have hperm : (List.insertionSort r (List.range w.length)).Perm (List.range w.length) :=
    List.perm_insertionSort r _
  have hslen : (List.insertionSort r (List.range w.length)).length = w.length := by
    rw [hperm.length_eq, List.length_range]
  have hmemval : ∀ i ∈ List.insertionSort r (List.range w.length), w.getD i 0 ∈ w := by
    intro i hi
    have hilt : i < w.length := List.mem_range.mp (hperm.mem_iff.mp hi)
    rw [getD_eq_getElem_of_lt w 0 i hilt]
    exact List.getElem_mem hilt
  have hcount : (List.insertionSort r (List.range w.length)).countP
      (fun i => pm (w.getD i 0)) = w.countP pm := by
    rw [hperm.countP_eq, countP_range_getD]
  have hres := countP_take_of_sorted r (List.insertionSort r (List.range w.length)) k
    (fun i => pm (w.getD i 0)) (fun i => qm (w.getD i 0))
    (List.sorted_insertionSort r _) (by omega)
    (fun i hi => hcover _ (hmemval i hi))
    (fun i _ h => hdisj (w.getD i 0) h)
    (fun i j hpi hqj => hsep i j hpi hqj)
    (by rw [hcount]; exact hk1)
  rw [hres, hcount]


/-- C3 (amended): for a weight array with `P` strictly-positive entries,
`N` strictly-negative entries and no zero entries, and `0 ≤ ζ ≤ 1`, the
marked set consists of exactly `⌊N·ζ⌋` negatives and `⌊P·ζ⌋` positives
(the claim states the two counts the other way around), obtained by
intersecting the top-`(⌊N·ζ⌋+P)` largest signed values with the negative
mask and the bottom-`(⌊P·ζ⌋+N)` smallest signed values with the positive
mask; the total count is `⌊P·ζ⌋ + ⌊N·ζ⌋`, and the marked slots of each
sign are the ones closest to zero: every unmarked negative lies at or
below every marked negative, every unmarked positive at or above every
marked positive. -/
theorem C3_prune_counts (w : List ℚ) (zeta : ℚ) :
    (∀ v ∈ w, v ≠ 0) → 0 ≤ zeta → zeta ≤ 1 →
    (markConnections w zeta).countP (fun i => decide (w.getD i 0 < 0)) =
      (⌊((w.filter fun v => decide (v < 0)).length : ℚ) * zeta⌋).toNat ∧
    (markConnections w zeta).countP (fun i => decide (0 < w.getD i 0)) =
      (⌊((w.filter fun v => decide (0 < v)).length : ℚ) * zeta⌋).toNat ∧
    (markConnections w zeta).length =
      (⌊((w.filter fun v => decide (0 < v)).length : ℚ) * zeta⌋).toNat +
      (⌊((w.filter fun v => decide (v < 0)).length : ℚ) * zeta⌋).toNat ∧
    (∀ i ∈ markConnections w zeta, w.getD i 0 < 0 →
      ∀ j, j < w.length → w.getD j 0 < 0 → j ∉ markConnections w zeta →
        w.getD j 0 ≤ w.getD i 0) ∧
    (∀ i ∈ markConnections w zeta, 0 < w.getD i 0 →
      ∀ j, j < w.length → 0 < w.getD j 0 → j ∉ markConnections w zeta →
        w.getD i 0 ≤ w.getD j 0) := by
  intro h0 hz0 hz1
  set P := (w.filter fun v => decide (0 < v)).length with hP
  set N := (w.filter fun v => decide (v < 0)).length with hN
  have hPc : w.countP (fun v => decide (0 < v)) = P := List.countP_eq_length_filter _ _
  have hNc : w.countP (fun v => decide (v < 0)) = N := List.countP_eq_length_filter _ _
  have hPN : P + N = w.length := by
    rw [← hPc, ← hNc]
    exact countP_pos_add_countP_neg w h0
  set negK := (⌊(N : ℚ) * zeta⌋).toNat + P with hnegK
  set posK := (⌊(P : ℚ) * zeta⌋).toNat + N with hposK
  have hmark : markConnections w zeta = (List.range w.length).filter fun i =>
      decide ((w.getD i 0 < 0 ∧ i ∈ topkIdx w negK true) ∨
        (0 < w.getD i 0 ∧ i ∈ topkIdx w posK false)) := rfl
  have hcover : ∀ v ∈ w, (decide (0 < v)) = true ∨ (decide (v < 0)) = true := by
    intro v hv
    rcases lt_trichotomy v 0 with h | h | h
    · exact Or.inr (decide_eq_true h)
    · exact absurd h (h0 v hv)
    · exact Or.inl (decide_eq_true h)
  have hcover2 : ∀ v ∈ w, (decide (v < 0)) = true ∨ (decide (0 < v)) = true := by
    intro v hv
    exact (hcover v hv).symm
  have hdisjv : ∀ v : ℚ, ¬((decide (0 < v)) = true ∧ (decide (v < 0)) = true) := by
    rintro v ⟨h1, h2⟩
    exact absurd (of_decide_eq_true h1) (not_lt.mpr (le_of_lt (of_decide_eq_true h2)))
  have hdisjv2 : ∀ v : ℚ, ¬((decide (v < 0)) = true ∧ (decide (0 < v)) = true) := by
    rintro v ⟨h1, h2⟩
    exact hdisjv v ⟨h2, h1⟩
  have hNzle : (⌊(N : ℚ) * zeta⌋).toNat ≤ N := toNat_floor_mul_le N zeta hz1
  have hPzle : (⌊(P : ℚ) * zeta⌋).toNat ≤ P := toNat_floor_mul_le P zeta hz1
  have hsepd : ∀ i j : ℕ, (decide (0 < w.getD i 0)) = true →
      (decide (w.getD j 0 < 0)) = true → ¬ descOrder w j i := by
    intro i j hpi hqj hr
    have h1 := of_decide_eq_true hpi
    have h2 := of_decide_eq_true hqj
    rcases hr with h3 | ⟨h3, _⟩
    · linarith
    · linarith
  have hsepa : ∀ i j : ℕ, (decide (w.getD i 0 < 0)) = true →
      (decide (0 < w.getD j 0)) = true → ¬ ascOrder w j i := by
    intro i j hpi hqj hr
    have h1 := of_decide_eq_true hpi
    have h2 := of_decide_eq_true hqj
    rcases hr with h3 | ⟨h3, _⟩
    · linarith
    · linarith
  have hkn : (topkIdx w negK true).countP (fun i => decide (w.getD i 0 < 0)) =
      (⌊(N : ℚ) * zeta⌋).toNat := by
    rw [topkIdx_true]
    rw [topk_count_aux w negK (descOrder w) (fun v => decide (0 < v))
      (fun v => decide (v < 0)) hcover hdisjv hsepd
      (by rw [hPc]; omega) (by omega)]
    rw [hPc]
    omega
  have hkp : (topkIdx w posK false).countP (fun i => decide (0 < w.getD i 0)) =
      (⌊(P : ℚ) * zeta⌋).toNat := by
    rw [topkIdx_false]
    rw [topk_count_aux w posK (ascOrder w) (fun v => decide (v < 0))
      (fun v => decide (0 < v)) hcover2 hdisjv2 hsepa
      (by rw [hNc]; omega) (by omega)]
    rw [hNc]
    omega
  have hknnd : (topkIdx w negK true).Nodup := by
    rw [topkIdx_true]
    exact (List.take_sublist _ _).nodup
      ((List.perm_insertionSort _ _).nodup_iff.mpr (List.nodup_range _))
  have hkpnd : (topkIdx w posK false).Nodup := by
    rw [topkIdx_false]
    exact (List.take_sublist _ _).nodup
      ((List.perm_insertionSort _ _).nodup_iff.mpr (List.nodup_range _))
  have hknsub : ∀ i ∈ topkIdx w negK true, i < w.length := by
    rw [topkIdx_true]
    intro i hi
    exact List.mem_range.mp
      ((List.perm_insertionSort _ _).mem_iff.mp ((List.take_sublist _ _).subset hi))
  have hkpsub : ∀ i ∈ topkIdx w posK false, i < w.length := by
    rw [topkIdx_false]
    intro i hi
    exact List.mem_range.mp
      ((List.perm_insertionSort _ _).mem_iff.mp ((List.take_sublist _ _).subset hi))
  have hcneg : (markConnections w zeta).countP (fun i => decide (w.getD i 0 < 0)) =
      (⌊(N : ℚ) * zeta⌋).toNat := by
    rw [hmark, List.countP_filter]
    have hcongr : (List.range w.length).countP (fun i => decide (w.getD i 0 < 0) &&
        decide ((w.getD i 0 < 0 ∧ i ∈ topkIdx w negK true) ∨
          (0 < w.getD i 0 ∧ i ∈ topkIdx w posK false))) =
        (List.range w.length).countP (fun i => decide (w.getD i 0 < 0) &&
          decide (i ∈ topkIdx w negK true)) := by
      apply List.countP_congr
      intro i _
      cases hneg : decide (w.getD i 0 < 0) with
      | false => simp [hneg]
      | true =>
        have hv := of_decide_eq_true hneg
        have hnpos : ¬ (0 < w.getD i 0) := not_lt.mpr (le_of_lt hv)
        simp only [Bool.true_and, decide_eq_true_eq]
        constructor
        · rintro (⟨_, hm⟩ | ⟨hp, _⟩)
          · exact hm
          · exact absurd hp hnpos
        · intro hm
          exact Or.inl ⟨hv, hm⟩
    rw [hcongr, countP_range_mem _ _ hknnd hknsub, hkn]
  have hcpos : (markConnections w zeta).countP (fun i => decide (0 < w.getD i 0)) =
      (⌊(P : ℚ) * zeta⌋).toNat := by
    rw [hmark, List.countP_filter]
    have hcongr : (List.range w.length).countP (fun i => decide (0 < w.getD i 0) &&
        decide ((w.getD i 0 < 0 ∧ i ∈ topkIdx w negK true) ∨
          (0 < w.getD i 0 ∧ i ∈ topkIdx w posK false))) =
        (List.range w.length).countP (fun i => decide (0 < w.getD i 0) &&
          decide (i ∈ topkIdx w posK false)) := by
      apply List.countP_congr
      intro i _
      cases hpos : decide (0 < w.getD i 0) with
      | false => simp [hpos]
      | true =>
        have hv := of_decide_eq_true hpos
        have hnneg : ¬ (w.getD i 0 < 0) := not_lt.mpr (le_of_lt hv)
        simp only [Bool.true_and, decide_eq_true_eq]
        constructor
        · rintro (⟨hn, _⟩ | ⟨_, hm⟩)
          · exact absurd hn hnneg
          · exact hm
        · intro hm
          exact Or.inr ⟨hv, hm⟩
    rw [hcongr, countP_range_mem _ _ hkpnd hkpsub, hkp]
  refine ⟨hcneg, hcpos, ?_, ?_, ?_⟩
  · rw [hmark, ← List.countP_eq_length_filter]
    have hsplit : (List.range w.length).countP (fun i =>
        decide ((w.getD i 0 < 0 ∧ i ∈ topkIdx w negK true) ∨
          (0 < w.getD i 0 ∧ i ∈ topkIdx w posK false))) =
        (List.range w.length).countP (fun i =>
          (decide (w.getD i 0 < 0) && decide (i ∈ topkIdx w negK true)) ||
          (decide (0 < w.getD i 0) && decide (i ∈ topkIdx w posK false))) := by
      apply List.countP_congr
      intro i _
      simp [Bool.decide_or, Bool.decide_and]
    rw [hsplit, countP_or_disjoint]
    · have e1 : (List.range w.length).countP (fun i =>
          decide (w.getD i 0 < 0) && decide (i ∈ topkIdx w negK true)) =
          (⌊(N : ℚ) * zeta⌋).toNat := by
        rw [countP_range_mem _ _ hknnd hknsub, hkn]
      have e2 : (List.range w.length).countP (fun i =>
          decide (0 < w.getD i 0) && decide (i ∈ topkIdx w posK false)) =
          (⌊(P : ℚ) * zeta⌋).toNat := by
        rw [countP_range_mem _ _ hkpnd hkpsub, hkp]
      rw [e1, e2]
      omega
    · rintro i _ ⟨ha, hb⟩
      rcases Bool.and_eq_true_iff.mp ha with ⟨ha1, _⟩
      rcases Bool.and_eq_true_iff.mp hb with ⟨hb1, _⟩
      exact hdisjv (w.getD i 0) ⟨hb1, ha1⟩
  · intro i hi hneg j hjlt hjneg hjnot
    rw [hmark] at hi
    have hiKN : i ∈ topkIdx w negK true := by
      rcases of_decide_eq_true (List.mem_filter.mp hi).2 with ⟨_, hmem⟩ | ⟨hpos, _⟩
      · exact hmem
      · exact absurd hpos (not_lt.mpr (le_of_lt hneg))
    have hjKN : j ∉ topkIdx w negK true := by
      intro hjmem
      apply hjnot
      rw [hmark]
      exact List.mem_filter.mpr ⟨List.mem_range.mpr hjlt,
        decide_eq_true (Or.inl ⟨hjneg, hjmem⟩)⟩
    rw [topkIdx_true] at hiKN hjKN
    have hjs : j ∈ List.insertionSort (descOrder w) (List.range w.length) :=
      (List.perm_insertionSort _ _).mem_iff.mpr (List.mem_range.mpr hjlt)
    have hjD := mem_drop_of_not_mem_take hjs hjKN
    have hrel : descOrder w i j := sorted_take_drop_rel (descOrder w) _ negK
      (List.sorted_insertionSort _ _) hiKN hjD
    rcases hrel with h | ⟨h, _⟩
    · exact le_of_lt h
    · exact le_of_eq h.symm
  · intro i hi hpos j hjlt hjpos hjnot
    rw [hmark] at hi
    have hiKP : i ∈ topkIdx w posK false := by
      rcases of_decide_eq_true (List.mem_filter.mp hi).2 with ⟨hneg, _⟩ | ⟨_, hmem⟩
      · exact absurd hneg (not_lt.mpr (le_of_lt hpos))
      · exact hmem
    have hjKP : j ∉ topkIdx w posK false := by
      intro hjmem
      apply hjnot
      rw [hmark]
      exact List.mem_filter.mpr ⟨List.mem_range.mpr hjlt,
        decide_eq_true (Or.inr ⟨hjpos, hjmem⟩)⟩
    rw [topkIdx_false] at hiKP hjKP
    have hjs : j ∈ List.insertionSort (ascOrder w) (List.range w.length) :=
      (List.perm_insertionSort _ _).mem_iff.mpr (List.mem_range.mpr hjlt)
    have hjD := mem_drop_of_not_mem_take hjs hjKP
    have hrel : ascOrder w i j := sorted_take_drop_rel (ascOrder w) _ posK
      (List.sorted_insertionSort _ _) hiKP hjD
    rcases hrel with h | ⟨h, _⟩
    · exact le_of_lt h
    · exact le_of_eq h


/-- C3 counterexample: for `w = [1, 2, 3, 4, -1]` (`P = 4` positives,
`N = 1` negative) and `ζ = 3/10`, the claim predicts `⌊P·ζ⌋ = 1` marked
negative together with `⌊N·ζ⌋ = 0` marked positives.  The code instead
marks exactly the slot 0, whose weight `1` is positive: the marked set
holds `⌊N·ζ⌋ = 0` negatives and `⌊P·ζ⌋ = 1` positive — the two per-sign
counts are swapped relative to the claim. -/
theorem C3_counterexample :
    markConnections [1, 2, 3, 4, -1] (3 / 10) = [0] ∧
    (0 : ℚ) < ([1, 2, 3, 4, -1] : List ℚ).getD 0 0 ∧
    (⌊((([1, 2, 3, 4, -1] : List ℚ).filter fun v =>
        decide (0 < v)).length : ℚ) * (3 / 10)⌋).toNat = 1 :=
  ⟨by with_unfolding_all decide, by with_unfolding_all decide,
    by with_unfolding_all decide⟩

/-- C3 witness: the marked-negative count on `w = [1, 2, 3, 4, -1]`,
`ζ = 3/10` equals `⌊N·ζ⌋` (with `N = 1`, that is `0`). -/
theorem C3_prune_counts_witness :
    (markConnections [1, 2, 3, 4, -1] (3 / 10)).countP
        (fun i => decide (([1, 2, 3, 4, -1] : List ℚ).getD i 0 < 0)) =
      (⌊((([1, 2, 3, 4, -1] : List ℚ).filter fun v =>
          decide (v < 0)).length : ℚ) * (3 / 10)⌋).toNat := by
  have h := C3_prune_counts [1, 2, 3, 4, -1] (3 / 10)
    (by with_unfolding_all decide) (by with_unfolding_all decide)
    (by with_unfolding_all decide)
  exact h.1

/-- C10: the prune-selection masks test strict signs (`tens > 0`,
`tens < 0` at lines 149 and 152), so no slot whose weight is exactly
zero is ever marked; consequently a slot zeroed by
`evolve(reinitialize=false)` is never selected by a later marking pass
while its weight is still exactly zero. -/
theorem C10_no_zero_marked (w : List ℚ) (zeta : ℚ) (i : ℕ) :
    i ∈ markConnections w zeta → w.getD i 0 ≠ 0 := by
  intro hi
  have hmark : markConnections w zeta = (List.range w.length).filter fun i =>
      decide ((w.getD i 0 < 0 ∧ i ∈ topkIdx w
          ((⌊((w.filter fun v => decide (v < 0)).length : ℚ) * zeta⌋).toNat +
            (w.filter fun v => decide (0 < v)).length) true) ∨
        (0 < w.getD i 0 ∧ i ∈ topkIdx w
          ((⌊((w.filter fun v => decide (0 < v)).length : ℚ) * zeta⌋).toNat +
            (w.filter fun v => decide (v < 0)).length) false)) := rfl
  rw [hmark] at hi
  rcases of_decide_eq_true (List.mem_filter.mp hi).2 with ⟨h1, _⟩ | ⟨h1, _⟩
  · exact ne_of_lt h1
  · exact ne_of_gt h1

/-- C10 witness: slot 0 is marked for `w = [1, 2, 3, 4, -1]`, `ζ = 3/10`,
and its weight is indeed nonzero. -/
theorem C10_no_zero_marked_witness : ([1, 2, 3, 4, -1] : List ℚ).getD 0 0 ≠ 0 :=
  C10_no_zero_marked [1, 2, 3, 4, -1] (3 / 10) 0 (by with_unfolding_all decide)

end Synapses
